import Mathlib

/-!
# Verification of the image-to-gesture drawing pipeline (`adb_draw.py`)

This file shallowly embeds the core of the repository's single source file
`src/adb_draw.py` and proves the specification's claims about it.

Modelling conventions:
* Python `float` arithmetic in the geometry scaler is modelled exactly over `ℚ`
  (the constants `0.1` and `0.7` become `1/10` and `7/10`); `int(x)` on the
  nonnegative values occurring there is `⌊x⌋`, and Python's floor division
  `//` on integers is `Int.fdiv`.
* Python strings are modelled as `List Char`; `str.split(c)` (single-character
  separator, the only form used), `str.strip()`, `str.replace(old, "")` and
  substring membership `a in b` are implemented structurally below.
* `numpy` row data of the binarized image is a `List ℕ` of samples
  (`0` = foreground after `cv2.threshold(..., THRESH_BINARY | THRESH_OTSU)`,
  `255` = background); the raster is a `List (List ℕ)`.
* The external effects (`subprocess.run` of adb, `cv2.imread`/`resize`/
  `threshold`, `time.sleep`) are out of scope per the spec; the pipeline is
  modelled as the function from the adapter's textual replies and the
  binarized raster to the list of dispatched swipe commands, with fatal
  conditions as `Except` errors.  A Python exception that the source does not
  catch (`ZeroDivisionError`) is modelled as an explicit error value.
-/

namespace AdbDraw

/-- `DRAW_STEP = 5`: the row stride of the drawing loop. -/
def DRAW_STEP : ℕ := 5

/-- `SWIPE_DURATION_MS = 150`. -/
def SWIPE_DURATION_MS : ℕ := 150

/-- `MIN_LINE_LENGTH_PX = 8`: the minimum gesture length. -/
def MIN_LINE_LENGTH_PX : ℤ := 8

/-- `OFFSET_X_ADJUST = 60`. -/
def OFFSET_X_ADJUST : ℤ := 60

/-- `OFFSET_Y_ADJUST = -160`. -/
def OFFSET_Y_ADJUST : ℤ := -160

/-- `SCREEN_MARGIN_RATIO = 0.1`, modelled as the exact rational `1/10`. -/
def screenMarginFrac : ℚ := 1 / 10

/-- `MAX_CANVAS_HEIGHT_RATIO = 0.7`, modelled as the exact rational `7/10`. -/
def maxCanvasHeightFrac : ℚ := 7 / 10

/-! ## Python string primitives on `List Char` -/

/-- Does the second list start with the first one?  (Used for substring
search, mirroring Python's `in` and `str.replace`.) -/
def startsWithChars : List Char → List Char → Bool
  | [], _ => true
  | _ :: _, [] => false
  | p :: ps, c :: cs => p == c && startsWithChars ps cs

/-- Python's substring test `needle in hay`. -/
def containsSub (needle : List Char) : List Char → Bool
  | [] => startsWithChars needle []
  | c :: rest => startsWithChars needle (c :: rest) || containsSub needle rest

/-- Fuelled worker for `removeOccurrences`; the fuel is the length of the
string, enough because every step consumes at least one character. -/
def removeOccsFuel : ℕ → List Char → List Char → List Char
  | 0, _, _ => []
  | _ + 1, _, [] => []
  | fuel + 1, pat, c :: rest =>
    if !pat.isEmpty && startsWithChars pat (c :: rest) then
      removeOccsFuel fuel pat ((c :: rest).drop pat.length)
    else
      c :: removeOccsFuel fuel pat rest

/-- Python's `s.replace(old, "")`: delete every (left-to-right,
non-overlapping) occurrence of `pat`. -/
def removeOccurrences (pat l : List Char) : List Char := removeOccsFuel l.length pat l

/-- Python's `s.strip()`: drop whitespace from both ends. -/
def stripChars (l : List Char) : List Char :=
  ((l.dropWhile Char.isWhitespace).reverse.dropWhile Char.isWhitespace).reverse

/-- Python's `s.split(sep)` for a single-character separator (the source only
splits on `":"` and `"x"`).  Always returns a non-empty list of groups. -/
def splitOnChar (sep : Char) : List Char → List (List Char)
  | [] => [[]]
  | c :: rest =>
    let r := splitOnChar sep rest
    if c == sep then
      [] :: r
    else
      match r with
      | [] => [[c]]
      | g :: gs => (c :: g) :: gs

/-- Value of a digit string, most significant first. -/
def digitsToNat (l : List Char) : ℕ := l.foldl (fun acc c => acc * 10 + (c.toNat - 48)) 0

/-- Python's `int(s)` for the nonnegative numerals relevant here: succeeds on
a non-empty all-digit string, fails (raises `ValueError`, caught by the
source) otherwise.  (Python's `int` additionally tolerates surrounding
whitespace and a sign; the strings the source feeds it are already
stripped resolution components.) -/
def parseNat? (l : List Char) : Option ℕ :=
  if !l.isEmpty && l.all Char.isDigit then some (digitsToNat l) else none

/-! ## `get_device_screen_resolution` (lines 62–79) -/

/-- The parsing core of `get_device_screen_resolution`: from the textual
output of `adb shell wm size`, require the `"Physical size:"` pattern, take
the text after the last `":"`, strip it, split it on `"x"` and parse exactly
two integers.  Any failure (pattern absent, wrong number of components, a
non-numeral component) yields `none`, as the source's `except
(ValueError, IndexError): pass` path does. -/
def parse_resolution (screenInfo : List Char) : Option (ℕ × ℕ) :=
  if containsSub ("Physical size:".toList) screenInfo then
    match (splitOnChar 'x' (stripChars ((splitOnChar ':' screenInfo).getLastD []))).map parseNat? with
    | [some w, some h] => some (w, h)
    | _ => none
  else none

/-- The device-connected gate (lines 135–138): `"device" in
devices_output.replace("List of devices attached", "").strip()`. -/
def deviceConnected (devicesOut : List Char) : Bool :=
  containsSub ("device".toList)
    (stripChars (removeOccurrences ("List of devices attached".toList) devicesOut))

/-! ## `draw_single_line` (lines 82–105) -/

/-- A dispatched swipe: `adb shell input swipe x1 y1 x2 y2 duration`. -/
structure GestureCommand where
  x1 : ℤ
  y1 : ℤ
  x2 : ℤ
  y2 : ℤ
  durationMs : ℕ
  deriving DecidableEq

/-- `draw_single_line(x1, y1, x2, y2)`: compute
`line_length = math.hypot(x2 - x1, y2 - y1)` and if it is below
`MIN_LINE_LENGTH_PX` replace `x2` by `x1 + MIN_LINE_LENGTH_PX`; then dispatch
the swipe.  All endpoints the drawing loop passes in are integers, so the
comparison `hypot(dx, dy) < 8` is modelled exactly by `dx² + dy² < 8²`. -/
def draw_single_line (x1 y1 x2 y2 : ℤ) : GestureCommand :=
  let x2e : ℤ :=
    if (x2 - x1) ^ 2 + (y2 - y1) ^ 2 < MIN_LINE_LENGTH_PX ^ 2 then x1 + MIN_LINE_LENGTH_PX
    else x2
  ⟨x1, y1, x2e, y2, SWIPE_DURATION_MS⟩

/-! ## The geometry scaler (lines 157–172) -/

/-- The pipeline's failure modes.  `zeroDivisionError` models the uncaught
Python `ZeroDivisionError` raised by `scale_factor = initial_canvas_width /
img_width` when `img_width == 0`; the others are the source's guarded early
returns. -/
inductive DrawError where
  | noDevice
  | resolutionUnavailable
  | imageNotFound
  | imageUnreadable
  | zeroDivisionError
  /-- Named by the spec's error taxonomy for the geometry scaler; the
  source has no such guard and never produces it. -/
  | invalidGeometry
  deriving DecidableEq

/-- Output of step 5 of `process_image_and_draw`. -/
structure ScaleResult where
  scaledWidth : ℤ
  scaledHeight : ℤ
  screenMargin : ℤ
  scaleFactor : ℚ
  deriving DecidableEq

/-! Lines 157–172 of `process_image_and_draw`:

```
screen_margin = int(screen_width * SCREEN_MARGIN_RATIO)
initial_canvas_width = screen_width - 2 * screen_margin
scale_factor = initial_canvas_width / img_width          -- raises on img_width == 0
scaled_height = int(img_height * scale_factor)
if scaled_height > screen_height * MAX_CANVAS_HEIGHT_RATIO:
    scale_factor = (screen_height * MAX_CANVAS_HEIGHT_RATIO) / img_height
    scaled_height = int(img_height * scale_factor)
    initial_canvas_width = int(img_width * scale_factor)
    screen_margin = (screen_width - initial_canvas_width) // 2
scaled_width = initial_canvas_width
```

`int(·)` truncates toward zero; every value it is applied to here is
nonnegative, so it is `⌊·⌋`.  The division by `img_height` inside the branch
cannot divide by zero, because the branch requires `scaled_height ≥ 1` and
hence `img_height ≥ 1`.  The successive values of the reassigned Python
variables are the named definitions below (`…0` for the first pass, `…1`
for the height-limited reassignment). -/

/-- `screen_margin = int(screen_width * SCREEN_MARGIN_RATIO)`. -/
def screenMargin0 (sw : ℕ) : ℤ := ⌊(sw : ℚ) * screenMarginFrac⌋

/-- `initial_canvas_width = screen_width - 2 * screen_margin`. -/
def initialCanvasWidth (sw : ℕ) : ℤ := (sw : ℤ) - 2 * screenMargin0 sw

/-- `scale_factor = initial_canvas_width / img_width`. -/
def scaleFactor0 (imgW sw : ℕ) : ℚ := (initialCanvasWidth sw : ℚ) / (imgW : ℚ)

/-- `scaled_height = int(img_height * scale_factor)`. -/
def scaledHeight0 (imgW imgH sw : ℕ) : ℤ := ⌊(imgH : ℚ) * scaleFactor0 imgW sw⌋

/-- The branch condition
`scaled_height > screen_height * MAX_CANVAS_HEIGHT_RATIO`. -/
def heightLimited (imgW imgH sw sh : ℕ) : Prop :=
  (scaledHeight0 imgW imgH sw : ℚ) > (sh : ℚ) * maxCanvasHeightFrac

instance heightLimited.decidable (imgW imgH sw sh : ℕ) :
    Decidable (heightLimited imgW imgH sw sh) := by
  unfold heightLimited
  infer_instance

/-- Branch: `scale_factor = (screen_height * MAX_CANVAS_HEIGHT_RATIO) / img_height`. -/
def scaleFactor1 (imgH sh : ℕ) : ℚ := (sh : ℚ) * maxCanvasHeightFrac / (imgH : ℚ)

/-- Branch: `scaled_height = int(img_height * scale_factor)`. -/
def scaledHeight1 (imgH sh : ℕ) : ℤ := ⌊(imgH : ℚ) * scaleFactor1 imgH sh⌋

/-- Branch: `initial_canvas_width = int(img_width * scale_factor)`. -/
def canvasWidth1 (imgW imgH sh : ℕ) : ℤ := ⌊(imgW : ℚ) * scaleFactor1 imgH sh⌋

/-- Branch: `screen_margin = (screen_width - initial_canvas_width) // 2`. -/
def screenMargin1 (imgW imgH sw sh : ℕ) : ℤ :=
  ((sw : ℤ) - canvasWidth1 imgW imgH sh).fdiv 2

def geometryScale (imgWidth imgHeight screenWidth screenHeight : ℕ) :
    Except DrawError ScaleResult :=
  if imgWidth = 0 then .error .zeroDivisionError
  else if heightLimited imgWidth imgHeight screenWidth screenHeight then
    .ok ⟨canvasWidth1 imgWidth imgHeight screenHeight, scaledHeight1 imgHeight screenHeight,
      screenMargin1 imgWidth imgHeight screenWidth screenHeight,
      scaleFactor1 imgHeight screenHeight⟩
  else
    .ok ⟨initialCanvasWidth screenWidth, scaledHeight0 imgWidth imgHeight screenWidth,
      screenMargin0 screenWidth, scaleFactor0 imgWidth screenWidth⟩

/-! ## The coordinate mapper (lines 190–191 and 225–228) -/

/-- `draw_offset_x = screen_margin + OFFSET_X_ADJUST`. -/
def drawOffsetX (screen_margin : ℤ) : ℤ := screen_margin + OFFSET_X_ADJUST

/-- `draw_offset_y = (screen_height - scaled_height) // 2 + OFFSET_Y_ADJUST`. -/
def drawOffsetY (screen_height scaled_height : ℤ) : ℤ :=
  (screen_height - scaled_height).fdiv 2 + OFFSET_Y_ADJUST

/-- Lines 225–228: map a row segment to the swipe's endpoints. -/
def mapSegment (draw_offset_x draw_offset_y : ℤ) (row startCol endCol : ℕ) :
    (ℤ × ℤ) × (ℤ × ℤ) :=
  ((draw_offset_x + startCol, draw_offset_y + row), (draw_offset_x + endCol, draw_offset_y + row))

/-! ## The segment extractor (lines 208–234)

The column scan of one row,

```
col_idx = 0
while col_idx < scaled_width:
    if row_data[col_idx] == 0:
        start_col = col_idx
        while col_idx < scaled_width and row_data[col_idx] == 0:
            col_idx += 1
        end_col = col_idx - 1
        ... emit (start_col, end_col) ...
    else:
        col_idx += 1
```

is embedded on the remaining suffix `row_data[col_idx:]` of the row: the
inner `while` consumes the leading foreground run (`takeWhile`/`dropWhile`),
and the `else` branch consumes one sample.  Since every outer iteration
consumes at least one sample, the length of the row is enough fuel; the
fuelled worker keeps the definition computable by the kernel. -/

/-- Foreground test: a binarized sample equal to `0`. -/
def isFG (v : ℕ) : Bool := v == 0

/-- Length of the leading foreground run: how far the inner `while` advances
`col_idx`. -/
def runLen (l : List ℕ) : ℕ := (l.takeWhile isFG).length

/-- Fuelled worker for the column scan; `l` is the remaining row suffix and
`col` the current `col_idx`. -/
def extractAuxFuel : ℕ → List ℕ → ℕ → List (ℕ × ℕ)
  | _, [], _ => []
  | 0, _ :: _, _ => []
  | fuel + 1, v :: rest, col =>
    if isFG v then
      (col, col + runLen (v :: rest) - 1) ::
        extractAuxFuel fuel (rest.dropWhile isFG) (col + runLen (v :: rest))
    else
      extractAuxFuel fuel rest (col + 1)

/-- The column scan from column `col` over the row suffix `l`. -/
def extractRowSegmentsAux (l : List ℕ) (col : ℕ) : List (ℕ × ℕ) :=
  extractAuxFuel l.length l col

/-- All `(start_col, end_col)` runs of one scanned row, left to right. -/
def extractRowSegments (rowData : List ℕ) : List (ℕ × ℕ) :=
  extractRowSegmentsAux rowData 0

/-- How far one iteration of the outer `while col_idx < scaled_width` loop
advances `col_idx` when the remaining row suffix is `l`: the length of the
leading foreground run (the inner `while`) in the drawing branch, one column
in the `else` branch. -/
def scanStepLen (l : List ℕ) : ℕ :=
  match l with
  | [] => 0
  | v :: _ => if isFG v then runLen l else 1

/-- What one iteration of the outer loop emits: the segment closed by the
inner `while` in the drawing branch, nothing in the `else` branch. -/
def scanIterEmit (l : List ℕ) (col : ℕ) : List (ℕ × ℕ) :=
  match l with
  | [] => []
  | v :: _ => if isFG v then [(col, col + runLen l - 1)] else []

/-- `range(0, stop, step)` of the drawing loop's `for row_idx in
range(0, scaled_height, DRAW_STEP)`: the `⌈stop/step⌉` values
`0, step, 2·step, …` below `stop` (for `step > 0`; Python raises on
`step == 0`, which cannot happen for the constant stride `5`). -/
def pyRangeStep (stop step : ℕ) : List ℕ := List.range' 0 ((stop + step - 1) / step) step

/-- The full segment extractor: every scanned row's segments, tagged with the
row index, rows in ascending order. -/
def extractSegments (image : List (List ℕ)) (scaledHeight step : ℕ) : List (ℕ × ℕ × ℕ) :=
  ((pyRangeStep scaledHeight step).map
    (fun r => (extractRowSegments (image.getD r [])).map (fun se => (r, se.1, se.2)))).flatten

/-- The drawing loop (lines 208–232): for every segment, in stream order,
map it to screen coordinates and dispatch `draw_single_line`.  The
`row_data = binary_image[row_idx]` lookup is `image.getD r []`, and each
row's length is `scaled_width` (the raster has the canvas dimensions), so
the `col_idx < scaled_width` loop bound is the row length. -/
def processDraw (image : List (List ℕ)) (scaledHeight : ℕ) (draw_offset_x draw_offset_y : ℤ) :
    List GestureCommand :=
  (extractSegments image scaledHeight DRAW_STEP).map
    (fun seg =>
      draw_single_line (draw_offset_x + seg.2.1) (draw_offset_y + seg.1)
        (draw_offset_x + seg.2.2) (draw_offset_y + seg.1))

/-! ## `process_image_and_draw` (lines 126–243) -/

/-- The pipeline, as the function from the adapter's textual replies and the
image to its result: the ordered guards of steps 1–4 (device gate,
resolution query, image existence, image readability), the geometry scaler
of step 5, the offsets of step 7, and the drawing loop of step 9.  The
binarization (steps 4 and 6, `cv2.imread`/`resize`/`cvtColor`/`threshold`)
is an external collaborator per the spec and enters as the oracle
`binarize`, giving the binary raster at the scaled dimensions.  The returned
list is the sequence of dispatched swipes; an error means the run ended
before the drawing loop with that diagnostic. -/
def process_image_and_draw (devicesOut wmSizeOut : List Char) (imageExists imageReadable : Bool)
    (imgWidth imgHeight : ℕ) (binarize : ℕ → ℕ → List (List ℕ)) :
    Except DrawError (List GestureCommand) :=
  if deviceConnected devicesOut = false then .error .noDevice
  else
    match parse_resolution wmSizeOut with
    | none => .error .resolutionUnavailable
    | some (screenWidth, screenHeight) =>
      if imageExists = false then .error .imageNotFound
      else if imageReadable = false then .error .imageUnreadable
      else
        match geometryScale imgWidth imgHeight screenWidth screenHeight with
        | .error e => .error e
        | .ok g =>
          .ok (processDraw (binarize g.scaledWidth.toNat g.scaledHeight.toNat) g.scaledHeight.toNat
            (drawOffsetX g.screenMargin) (drawOffsetY (screenHeight : ℤ) g.scaledHeight))

/-! ## Helper lemmas about `takeWhile`, `dropWhile` and `runLen` -/

theorem length_dropWhile_le {α : Type*} (p : α → Bool) (l : List α) :
    (l.dropWhile p).length ≤ l.length := by
  induction l with
  | nil => simp
  | cons a t ih =>
    by_cases h : p a
    · rw [List.dropWhile_cons_of_pos h]
      exact Nat.le_succ_of_le ih
    · rw [List.dropWhile_cons_of_neg h]

theorem runLen_cons_fg {v : ℕ} (hv : isFG v) (rest : List ℕ) :
    runLen (v :: rest) = runLen rest + 1 := by
  simp [runLen, List.takeWhile_cons_of_pos hv]

theorem runLen_cons_bg {v : ℕ} (hv : ¬ isFG v) (rest : List ℕ) :
    runLen (v :: rest) = 0 := by
  simp [runLen, List.takeWhile_cons_of_neg hv]

theorem runLen_le_length (l : List ℕ) : runLen l ≤ l.length := by
  induction l with
  | nil => simp [runLen]
  | cons v rest ih =>
    by_cases hv : isFG v
    · rw [runLen_cons_fg hv]
      simpa using ih
    · rw [runLen_cons_bg hv]
      simp

theorem runLen_add_length_dropWhile (l : List ℕ) :
    runLen l + (l.dropWhile isFG).length = l.length := by
  conv_rhs => rw [← List.takeWhile_append_dropWhile isFG l]
  rw [List.length_append]
  rfl

/-- Elements inside the leading foreground run are foreground (`0`). -/
theorem getElem?_lt_runLen : ∀ (l : List ℕ) (j : ℕ), j < runLen l → l[j]? = some 0 := by
  intro l
  induction l with
  | nil => simp [runLen]
  | cons v rest ih =>
    intro j hj
    by_cases hv : isFG v
    · cases j with
      | zero =>
        have : v = 0 := by simpa [isFG] using hv
        simp [this]
      | succ j =>
        rw [List.getElem?_cons_succ]
        exact ih j (by rw [runLen_cons_fg hv] at hj; omega)
    · rw [runLen_cons_bg hv] at hj
      omega

/-- Indexing past the leading foreground run lands in the `dropWhile` rest. -/
theorem getElem?_ge_runLen (l : List ℕ) (j : ℕ) (h : runLen l ≤ j) :
    l[j]? = (l.dropWhile isFG)[j - runLen l]? := by
  conv_lhs => rw [← List.takeWhile_append_dropWhile isFG l]
  exact List.getElem?_append_right h

/-! ## The fuelled scan: adequacy and unfolding equations -/

theorem extractAuxFuel_congr :
    ∀ (f1 f2 : ℕ) (l : List ℕ) (col : ℕ), l.length ≤ f1 → l.length ≤ f2 →
      extractAuxFuel f1 l col = extractAuxFuel f2 l col := by
  intro f1
  induction f1 with
  | zero =>
    intro f2 l col h1 _
    cases l with
    | nil => simp [extractAuxFuel]
    | cons v rest => simp at h1
  | succ f ih =>
    intro f2 l col h1 h2
    cases l with
    | nil => simp [extractAuxFuel]
    | cons v rest =>
      cases f2 with
      | zero => simp at h2
      | succ g =>
        simp only [List.length_cons] at h1 h2
        simp only [extractAuxFuel]
        by_cases hv : isFG v
        · simp only [hv, if_true]
          refine congrArg _ (ih g (rest.dropWhile isFG) _ ?_ ?_) <;>
            exact le_trans (length_dropWhile_le isFG rest) (by omega)
        · simp only [hv, if_false]
          exact ih g rest (col + 1) (by omega) (by omega)

theorem extractRowSegmentsAux_nil (col : ℕ) : extractRowSegmentsAux [] col = [] := rfl

theorem extractRowSegmentsAux_cons_fg {v : ℕ} (hv : isFG v) (rest : List ℕ) (col : ℕ) :
    extractRowSegmentsAux (v :: rest) col =
      (col, col + runLen (v :: rest) - 1) ::
        extractRowSegmentsAux (rest.dropWhile isFG) (col + runLen (v :: rest)) := by
  show extractAuxFuel (v :: rest).length (v :: rest) col = _
  simp only [List.length_cons, extractAuxFuel, hv, if_true]
  exact congrArg _ (extractAuxFuel_congr _ _ _ _ (length_dropWhile_le isFG rest) le_rfl)

theorem extractRowSegmentsAux_cons_bg {v : ℕ} (hv : ¬ isFG v) (rest : List ℕ) (col : ℕ) :
    extractRowSegmentsAux (v :: rest) col = extractRowSegmentsAux rest (col + 1) := by
  show extractAuxFuel (v :: rest).length (v :: rest) col = _
  simp only [List.length_cons, extractAuxFuel, hv, if_false]
  rfl

/-! ## Structural properties of the per-row scan -/

/-- Every yielded segment starts at or after the scan position, has
`startCol ≤ endCol`, and ends inside the scanned suffix. -/
theorem extract_mem_bounds :
    ∀ (l : List ℕ) (col : ℕ) (p : ℕ × ℕ), p ∈ extractRowSegmentsAux l col →
      col ≤ p.1 ∧ p.1 ≤ p.2 ∧ p.2 < col + l.length := by
  suffices h : ∀ (fuel : ℕ) (l : List ℕ), l.length ≤ fuel → ∀ (col : ℕ) (p : ℕ × ℕ),
      p ∈ extractRowSegmentsAux l col → col ≤ p.1 ∧ p.1 ≤ p.2 ∧ p.2 < col + l.length by
    exact fun l col p hp => h l.length l le_rfl col p hp
  intro fuel
  induction fuel with
  | zero =>
    intro l hl col p hp
    cases l with
    | nil => simp [extractRowSegmentsAux_nil] at hp
    | cons v rest => simp at hl
  | succ f ih =>
    intro l hl col p hp
    cases l with
    | nil => simp [extractRowSegmentsAux_nil] at hp
    | cons v rest =>
      simp only [List.length_cons] at hl ⊢
      by_cases hv : isFG v
      · rw [extractRowSegmentsAux_cons_fg hv] at hp
        have hn : runLen (v :: rest) = runLen rest + 1 := runLen_cons_fg hv rest
        have hrl : runLen rest ≤ rest.length := runLen_le_length rest
        rcases List.mem_cons.mp hp with hp1 | hp2
        · subst hp1
          refine ⟨le_rfl, ?_, ?_⟩ <;> simp only [] <;> omega
        · have hf : rest.length ≤ f := by omega
          have hb := ih (rest.dropWhile isFG) (le_trans (length_dropWhile_le isFG rest) hf)
            (col + runLen (v :: rest)) p hp2
          have hsum := runLen_add_length_dropWhile rest
          exact ⟨by omega, hb.2.1, by omega⟩
      · rw [extractRowSegmentsAux_cons_bg hv] at hp
        have hb := ih rest (by omega) (col + 1) p hp
        exact ⟨by omega, hb.2.1, by omega⟩

/-- Within a row, segments come out left to right and never overlap: each
segment ends strictly before the next one starts. -/
theorem extract_pairwise :
    ∀ (l : List ℕ) (col : ℕ),
      (extractRowSegmentsAux l col).Pairwise (fun a b => a.2 < b.1) := by
  suffices h : ∀ (fuel : ℕ) (l : List ℕ), l.length ≤ fuel → ∀ (col : ℕ),
      (extractRowSegmentsAux l col).Pairwise (fun a b => a.2 < b.1) by
    exact fun l col => h l.length l le_rfl col
  intro fuel
  induction fuel with
  | zero =>
    intro l hl col
    cases l with
    | nil => simp [extractRowSegmentsAux_nil]
    | cons v rest => simp at hl
  | succ f ih =>
    intro l hl col
    cases l with
    | nil => simp [extractRowSegmentsAux_nil]
    | cons v rest =>
      simp only [List.length_cons] at hl
      have hf : rest.length ≤ f := by omega
      by_cases hv : isFG v
      · rw [extractRowSegmentsAux_cons_fg hv]
        have hn : runLen (v :: rest) = runLen rest + 1 := runLen_cons_fg hv rest
        refine List.pairwise_cons.mpr ⟨?_, ih (rest.dropWhile isFG)
          (le_trans (length_dropWhile_le isFG rest) hf) _⟩
        intro q hq
        have := (extract_mem_bounds _ _ q hq).1
        simp only []
        omega
      · rw [extractRowSegmentsAux_cons_bg hv]
        exact ih rest hf (col + 1)

/-- Every column of a yielded segment holds a foreground sample: the scan
never merges two runs across a background gap.  Columns are absolute; the
scan looks at `l = row[col:]`, so column `col + j` is `l[j]`. -/
theorem extract_mem_foreground :
    ∀ (l : List ℕ) (col : ℕ) (p : ℕ × ℕ), p ∈ extractRowSegmentsAux l col →
      ∀ j : ℕ, p.1 ≤ col + j → col + j ≤ p.2 → l[j]? = some 0 := by
  suffices h : ∀ (fuel : ℕ) (l : List ℕ), l.length ≤ fuel → ∀ (col : ℕ) (p : ℕ × ℕ),
      p ∈ extractRowSegmentsAux l col →
        ∀ j : ℕ, p.1 ≤ col + j → col + j ≤ p.2 → l[j]? = some 0 by
    exact fun l col p hp => h l.length l le_rfl col p hp
  intro fuel
  induction fuel with
  | zero =>
    intro l hl col p hp
    cases l with
    | nil => simp [extractRowSegmentsAux_nil] at hp
    | cons v rest => simp at hl
  | succ f ih =>
    intro l hl col p hp j hj1 hj2
    cases l with
    | nil => simp [extractRowSegmentsAux_nil] at hp
    | cons v rest =>
      simp only [List.length_cons] at hl
      have hf : rest.length ≤ f := by omega
      by_cases hv : isFG v
      · rw [extractRowSegmentsAux_cons_fg hv] at hp
        have hn : runLen (v :: rest) = runLen rest + 1 := runLen_cons_fg hv rest
        rcases List.mem_cons.mp hp with hp1 | hp2
        · subst hp1
          simp only [] at hj1 hj2
          exact getElem?_lt_runLen (v :: rest) j (by omega)
        · have hb := (extract_mem_bounds _ _ p hp2).1
          have hge : runLen (v :: rest) ≤ j := by omega
          rw [getElem?_ge_runLen (v :: rest) j hge]
          have hdw : (v :: rest).dropWhile isFG = rest.dropWhile isFG :=
            List.dropWhile_cons_of_pos hv
          rw [hdw]
          exact ih (rest.dropWhile isFG) (le_trans (length_dropWhile_le isFG rest) hf)
            (col + runLen (v :: rest)) p hp2 (j - runLen (v :: rest)) (by omega) (by omega)
      · rw [extractRowSegmentsAux_cons_bg hv] at hp
        have hb := (extract_mem_bounds _ _ p hp).1
        have hj : 1 ≤ j := by omega
        have : (v :: rest)[j]? = rest[j - 1]? := by
          cases j with
          | zero => omega
          | succ i => simp
        rw [this]
        exact ih rest hf (col + 1) p hp (j - 1) (by omega) (by omega)

/-! ## Locality of the scan at a background boundary -/

theorem mem_of_getLast_opt {α : Type*} : ∀ (l : List α) (w : α), l.getLast? = some w → w ∈ l := by
  intro l
  induction l with
  | nil => simp
  | cons a t ih =>
    intro w hw
    cases t with
    | nil =>
      simp at hw
      simp [hw]
    | cons b u =>
      rw [List.getLast?_cons_cons] at hw
      exact List.mem_cons_of_mem a (ih w hw)

theorem getLast?_cons_ne {α : Type*} {t : List α} (a : α) (ht : t ≠ []) :
    (a :: t).getLast? = t.getLast? := by
  cases t with
  | nil => exact absurd rfl ht
  | cons b u => exact List.getLast?_cons_cons

theorem takeWhile_append_of_exists {α : Type*} {p : α → Bool} :
    ∀ {l1 : List α}, (∃ x ∈ l1, ¬ p x) → ∀ (l2 : List α),
      (l1 ++ l2).takeWhile p = l1.takeWhile p := by
  intro l1
  induction l1 with
  | nil => rintro ⟨x, hx, _⟩; simp at hx
  | cons a t ih =>
    rintro ⟨x, hx, hpx⟩ l2
    by_cases ha : p a
    · have hxt : x ∈ t := by
        rcases List.mem_cons.mp hx with h | h
        · subst h; exact absurd ha hpx
        · exact h
      rw [List.cons_append, List.takeWhile_cons_of_pos ha, List.takeWhile_cons_of_pos ha,
        ih ⟨x, hxt, hpx⟩ l2]
    · rw [List.cons_append, List.takeWhile_cons_of_neg ha, List.takeWhile_cons_of_neg ha]

theorem dropWhile_append_of_exists {α : Type*} {p : α → Bool} :
    ∀ {l1 : List α}, (∃ x ∈ l1, ¬ p x) → ∀ (l2 : List α),
      (l1 ++ l2).dropWhile p = l1.dropWhile p ++ l2 := by
  intro l1
  induction l1 with
  | nil => rintro ⟨x, hx, _⟩; simp at hx
  | cons a t ih =>
    rintro ⟨x, hx, hpx⟩ l2
    by_cases ha : p a
    · have hxt : x ∈ t := by
        rcases List.mem_cons.mp hx with h | h
        · subst h; exact absurd ha hpx
        · exact h
      rw [List.cons_append, List.dropWhile_cons_of_pos ha, List.dropWhile_cons_of_pos ha,
        ih ⟨x, hxt, hpx⟩ l2]
    · rw [List.cons_append, List.dropWhile_cons_of_neg ha, List.dropWhile_cons_of_neg ha,
        List.cons_append]

theorem getLast?_dropWhile_of_exists {α : Type*} {p : α → Bool} :
    ∀ {l : List α}, (∃ x ∈ l, ¬ p x) → (l.dropWhile p).getLast? = l.getLast? := by
  intro l
  induction l with
  | nil => rintro ⟨x, hx, _⟩; simp at hx
  | cons a t ih =>
    rintro ⟨x, hx, hpx⟩
    by_cases ha : p a
    · have hxt : x ∈ t := by
        rcases List.mem_cons.mp hx with h | h
        · subst h; exact absurd ha hpx
        · exact h
      have htne : t ≠ [] := List.ne_nil_of_mem hxt
      rw [List.dropWhile_cons_of_pos ha, ih ⟨x, hxt, hpx⟩, getLast?_cons_ne a htne]
    · rw [List.dropWhile_cons_of_neg ha]

/-- If `l1` ends with a background sample (or is empty), the scan of
`l1 ++ l2` is the scan of `l1` followed by the scan of `l2`: no run crosses
the boundary. -/
theorem extract_append :
    ∀ (l1 l2 : List ℕ) (col : ℕ), (∀ w, l1.getLast? = some w → ¬ isFG w) →
      extractRowSegmentsAux (l1 ++ l2) col =
        extractRowSegmentsAux l1 col ++ extractRowSegmentsAux l2 (col + l1.length) := by
  suffices h : ∀ (fuel : ℕ) (l1 : List ℕ), l1.length ≤ fuel → ∀ (l2 : List ℕ) (col : ℕ),
      (∀ w, l1.getLast? = some w → ¬ isFG w) →
      extractRowSegmentsAux (l1 ++ l2) col =
        extractRowSegmentsAux l1 col ++ extractRowSegmentsAux l2 (col + l1.length) by
    exact fun l1 l2 col hc => h l1.length l1 le_rfl l2 col hc
  intro fuel
  induction fuel with
  | zero =>
    intro l1 hl
    cases l1 with
    | nil => intro l2 col _; simp [extractRowSegmentsAux_nil]
    | cons v rest => simp at hl
  | succ f ih =>
    intro l1 hl l2 col hlast
    cases l1 with
    | nil => simp [extractRowSegmentsAux_nil]
    | cons v rest =>
      simp only [List.length_cons] at hl
      by_cases hv : isFG v
      · have hrest_ne : rest ≠ [] := by
          intro h
          subst h
          exact hlast v (by simp) hv
        have hx : ∃ x ∈ rest, ¬ isFG x := by
          obtain ⟨w, hw⟩ : ∃ w, rest.getLast? = some w := by
            cases hr : rest.getLast? with
            | none => exact absurd (List.getLast?_eq_none_iff.mp hr) hrest_ne
            | some w => exact ⟨w, rfl⟩
          exact ⟨w, mem_of_getLast_opt rest w hw,
            hlast w (by rw [getLast?_cons_ne v hrest_ne]; exact hw)⟩
        have hrun : runLen (v :: (rest ++ l2)) = runLen (v :: rest) := by
          rw [runLen_cons_fg hv, runLen_cons_fg hv]
          unfold runLen
          rw [takeWhile_append_of_exists hx l2]
        have hd : (rest ++ l2).dropWhile isFG = rest.dropWhile isFG ++ l2 :=
          dropWhile_append_of_exists hx l2
        have hcond : ∀ w, (rest.dropWhile isFG).getLast? = some w → ¬ isFG w := by
          intro w hw
          rw [getLast?_dropWhile_of_exists hx] at hw
          exact hlast w (by rw [getLast?_cons_ne v hrest_ne]; exact hw)
        have hlen : (rest.dropWhile isFG).length ≤ f :=
          le_trans (length_dropWhile_le isFG rest) (by omega)
        rw [List.cons_append, extractRowSegmentsAux_cons_fg hv, hrun, hd,
          ih (rest.dropWhile isFG) hlen l2 (col + runLen (v :: rest)) hcond,
          extractRowSegmentsAux_cons_fg hv, List.cons_append]
        have hsum := runLen_add_length_dropWhile rest
        have harith : col + runLen (v :: rest) + (rest.dropWhile isFG).length =
            col + (v :: rest).length := by
          rw [runLen_cons_fg hv, List.length_cons]
          omega
        rw [harith]
      · cases rest with
        | nil =>
          rw [List.cons_append, extractRowSegmentsAux_cons_bg hv,
            extractRowSegmentsAux_cons_bg hv]
          simp [extractRowSegmentsAux_nil]
        | cons b u =>
          have hcond : ∀ w, (b :: u).getLast? = some w → ¬ isFG w := by
            intro w hw
            exact hlast w (by rw [getLast?_cons_ne v (by simp)]; exact hw)
          rw [List.cons_append, extractRowSegmentsAux_cons_bg hv,
            extractRowSegmentsAux_cons_bg hv,
            ih (b :: u) (by simp only [List.length_cons] at hl ⊢; omega) l2 (col + 1) hcond]
          have harith : col + 1 + (b :: u).length = col + (v :: b :: u).length := by
            simp [List.length_cons]
            omega
          rw [harith]

/-- An isolated foreground pixel — background (or the row edge) on both
sides — yields the degenerate segment `(c, c)` at its position. -/
theorem extract_single_pixel (pre post : List ℕ)
    (hpre : ∀ w, pre.getLast? = some w → ¬ isFG w)
    (hpost : ∀ w, post.head? = some w → ¬ isFG w) :
    (pre.length, pre.length) ∈ extractRowSegments (pre ++ 0 :: post) := by
  unfold extractRowSegments
  rw [extract_append pre (0 :: post) 0 hpre]
  refine List.mem_append_right _ ?_
  have h0 : isFG 0 := by decide
  rw [extractRowSegmentsAux_cons_fg h0]
  have hrun : runLen (0 :: post) = 1 := by
    rw [runLen_cons_fg h0]
    have hz : runLen post = 0 := by
      cases post with
      | nil => rfl
      | cons b u => exact runLen_cons_bg (hpost b rfl) u
    omega
  rw [hrun]
  simp

/-! ## Lemmas about the scanned row indices and the full extractor -/

theorem drop_runLen (l : List ℕ) : l.drop (runLen l) = l.dropWhile isFG := by
  induction l with
  | nil => simp [runLen]
  | cons v rest ih =>
    by_cases hv : isFG v
    · rw [runLen_cons_fg hv, List.drop_succ_cons, List.dropWhile_cons_of_pos hv]
      exact ih
    · rw [runLen_cons_bg hv, List.drop_zero, List.dropWhile_cons_of_neg hv]

theorem lt_ceilDiv_iff (i h k : ℕ) (hk : 0 < k) : i < (h + k - 1) / k ↔ k * i < h := by
  rw [Nat.lt_iff_add_one_le, Nat.le_div_iff_mul_le hk, add_mul, one_mul, mul_comm i k]
  generalize k * i = a
  omega

theorem mem_pyRangeStep (h k r : ℕ) (hk : 0 < k) :
    r ∈ pyRangeStep h k ↔ k ∣ r ∧ r < h := by
  unfold pyRangeStep
  rw [List.mem_range']
  constructor
  · rintro ⟨i, hi, rfl⟩
    refine ⟨⟨i, by omega⟩, ?_⟩
    have := (lt_ceilDiv_iff i h k hk).mp hi
    omega
  · rintro ⟨⟨i, rfl⟩, hr⟩
    exact ⟨i, (lt_ceilDiv_iff i h k hk).mpr hr, by omega⟩

theorem pairwise_lt_range' :
    ∀ (n s k : ℕ), 0 < k → (List.range' s n k).Pairwise (fun a b => a < b) := by
  intro n
  induction n with
  | zero => intro s k _; simp
  | succ n ih =>
    intro s k hk
    rw [List.range'_succ]
    refine List.pairwise_cons.mpr ⟨?_, ih (s + k) k hk⟩
    intro m hm
    obtain ⟨i, _, rfl⟩ := List.mem_range'.mp hm
    generalize k * i = a
    omega

/-- Membership in the flat segment stream decomposes into a scanned row and
a per-row segment. -/
theorem extractSegments_mem (image : List (List ℕ)) (h k r s e : ℕ)
    (hmem : (r, s, e) ∈ extractSegments image h k) :
    r ∈ pyRangeStep h k ∧ (s, e) ∈ extractRowSegments (image.getD r []) := by
  unfold extractSegments at hmem
  obtain ⟨inner, hinner, hmem2⟩ := List.mem_flatten.mp hmem
  obtain ⟨r2, hr2, rfl⟩ := List.mem_map.mp hinner
  obtain ⟨se, hse, hseq⟩ := List.mem_map.mp hmem2
  obtain ⟨a, b⟩ := se
  simp only [Prod.mk.injEq] at hseq
  obtain ⟨rfl, rfl, rfl⟩ := hseq
  exact ⟨hr2, hse⟩

/-- The flat segment stream is ordered by (weakly) ascending row index. -/
theorem extractSegments_rows_mono (image : List (List ℕ)) (h k : ℕ) (hk : 0 < k) :
    (extractSegments image h k).Pairwise (fun a b => a.1 ≤ b.1) := by
  unfold extractSegments
  rw [List.pairwise_flatten]
  constructor
  · intro l hl
    obtain ⟨r, _, rfl⟩ := List.mem_map.mp hl
    rw [List.pairwise_map]
    exact (extract_pairwise _ 0).imp (fun _ => le_rfl)
  · rw [List.pairwise_map]
    unfold pyRangeStep
    refine (pairwise_lt_range' _ _ _ hk).imp ?_
    intro a b hab x hx y hy
    obtain ⟨sa, _, rfl⟩ := List.mem_map.mp hx
    obtain ⟨sb, _, rfl⟩ := List.mem_map.mp hy
    exact le_of_lt hab

/-! ## Claim theorems -/

/-- C1: on a single scanned row `[FG, FG, BG, BG, FG]` (foreground encoded
as 0) the segment extractor produces exactly the two segments `(0, 1)` and
`(4, 4)`, in that order; and in general an isolated single-pixel foreground
run — background (or the row edge) on both sides — yields a segment with
`startCol = endCol` at its column. -/
theorem c1_segment_extractor :
    extractRowSegments [0, 0, 255, 255, 0] = [(0, 1), (4, 4)] ∧
    ∀ (pre post : List ℕ),
      (pre.getLast?.all fun w => ! isFG w) = true →
      (post.head?.all fun w => ! isFG w) = true →
      (pre.length, pre.length) ∈ extractRowSegments (pre ++ 0 :: post) := by
  refine ⟨by decide, ?_⟩
  intro pre post hpre hpost
  apply extract_single_pixel
  · intro w hw
    rw [hw] at hpre
    simpa using hpre
  · intro w hw
    rw [hw] at hpost
    simpa using hpost

/-- Witness for C1: the concrete pattern, and the single pixel of
`[BG, FG, BG]` yielding the degenerate segment `(1, 1)`. -/
theorem c1_segment_extractor_witness :
    extractRowSegments [0, 0, 255, 255, 0] = [(0, 1), (4, 4)] ∧
    (1, 1) ∈ extractRowSegments [255, 0, 255] :=
  ⟨c1_segment_extractor.1, c1_segment_extractor.2 [255] [255] (by decide) (by decide)⟩

/-- C5: the drawing loop scans exactly the row indices that are multiples
of the stride `k` and below `canvasHeight`; within a scanned row segments
are yielded left to right (each ends strictly before the next starts); the
flat stream is ordered by ascending row index; and every column of a
yielded segment is foreground, so runs are never merged across a background
gap. -/
theorem c5_extractor_order :
    (∀ (h k r : ℕ), 0 < k → (r ∈ pyRangeStep h k ↔ k ∣ r ∧ r < h)) ∧
    (∀ rowData : List ℕ, (extractRowSegments rowData).Pairwise fun a b => a.2 < b.1) ∧
    (∀ (image : List (List ℕ)) (h k : ℕ), 0 < k →
      (extractSegments image h k).Pairwise fun a b => a.1 ≤ b.1) ∧
    (∀ (image : List (List ℕ)) (h k r s e : ℕ), (r, s, e) ∈ extractSegments image h k →
      ∀ j : ℕ, s ≤ j → j ≤ e → (image.getD r [])[j]? = some 0) := by
  refine ⟨fun h k r hk => mem_pyRangeStep h k r hk, fun rowData => extract_pairwise rowData 0,
    fun image h k hk => extractSegments_rows_mono image h k hk, ?_⟩
  intro image h k r s e hmem j hj1 hj2
  have hrow := (extractSegments_mem image h k r s e hmem).2
  exact extract_mem_foreground (image.getD r []) 0 (s, e) hrow j
    (by show s ≤ 0 + j; omega) (by show 0 + j ≤ e; omega)

/-- Witness for C5 at concrete inputs. -/
theorem c5_extractor_order_witness :
    (5 ∈ pyRangeStep 12 5 ↔ 5 ∣ 5 ∧ 5 < 12) ∧
    ((extractRowSegments [0, 255, 0, 0]).Pairwise fun a b => a.2 < b.1) ∧
    ((extractSegments [[0]] 1 1).Pairwise fun a b => a.1 ≤ b.1) ∧
    ([[0]].getD 0 [])[0]? = some 0 :=
  ⟨c5_extractor_order.1 12 5 5 (by decide),
   c5_extractor_order.2.1 [0, 255, 0, 0],
   c5_extractor_order.2.2.1 [[0]] 1 1 (by decide),
   c5_extractor_order.2.2.2 [[0]] 1 1 0 0 0 (by decide) 0 (by decide) (by decide)⟩

/-- C10: on a non-empty remaining row suffix, one iteration of the outer
column-scan loop advances `col_idx` by `scanStepLen ≥ 1` — the length of the
inner foreground-run loop in the drawing branch (itself at most the
remaining row length, so the inner loop terminates within the row), one in
the background branch — and consumes exactly that many samples; the scan
therefore strictly progresses and is a total function of the row data. -/
theorem c10_scan_terminates :
    ∀ (l : List ℕ) (col : ℕ), l ≠ [] →
      0 < scanStepLen l ∧ scanStepLen l ≤ l.length ∧
      extractRowSegmentsAux l col =
        scanIterEmit l col ++
          extractRowSegmentsAux (l.drop (scanStepLen l)) (col + scanStepLen l) := by
  intro l col hne
  cases l with
  | nil => exact absurd rfl hne
  | cons v rest =>
    by_cases hv : isFG v
    · have hn : runLen (v :: rest) = runLen rest + 1 := runLen_cons_fg hv rest
      have h1 : scanStepLen (v :: rest) = runLen (v :: rest) := by simp [scanStepLen, hv]
      have h2 : scanIterEmit (v :: rest) col = [(col, col + runLen (v :: rest) - 1)] := by
        simp [scanIterEmit, hv]
      refine ⟨by rw [h1, hn]; omega,
        by rw [h1, hn, List.length_cons]; have := runLen_le_length rest; omega, ?_⟩
      rw [h1, h2, drop_runLen (v :: rest), List.dropWhile_cons_of_pos hv,
        extractRowSegmentsAux_cons_fg hv]
      rfl
    · have h1 : scanStepLen (v :: rest) = 1 := by simp [scanStepLen, hv]
      have h2 : scanIterEmit (v :: rest) col = [] := by simp [scanIterEmit, hv]
      refine ⟨by omega, by rw [h1, List.length_cons]; omega, ?_⟩
      rw [h1, h2, extractRowSegmentsAux_cons_bg hv]
      simp

/-- Witness for C10 on the row `[FG, BG]`. -/
theorem c10_scan_terminates_witness :
    0 < scanStepLen [0, 255] ∧ scanStepLen [0, 255] ≤ ([0, 255] : List ℕ).length ∧
    extractRowSegmentsAux [0, 255] 0 =
      scanIterEmit [0, 255] 0 ++
        extractRowSegmentsAux (([0, 255] : List ℕ).drop (scanStepLen [0, 255]))
          (0 + scanStepLen [0, 255]) :=
  c10_scan_terminates [0, 255] 0 (by decide)

/-! ## Evaluation of the minimum-length rule -/

theorem draw_single_line_short {x1 y1 x2 y2 : ℤ}
    (h : (x2 - x1) ^ 2 + (y2 - y1) ^ 2 < MIN_LINE_LENGTH_PX ^ 2) :
    draw_single_line x1 y1 x2 y2 = ⟨x1, y1, x1 + MIN_LINE_LENGTH_PX, y2, SWIPE_DURATION_MS⟩ := by
  simp only [draw_single_line]
  rw [if_pos h]

theorem draw_single_line_long {x1 y1 x2 y2 : ℤ}
    (h : ¬ ((x2 - x1) ^ 2 + (y2 - y1) ^ 2 < MIN_LINE_LENGTH_PX ^ 2)) :
    draw_single_line x1 y1 x2 y2 = ⟨x1, y1, x2, y2, SWIPE_DURATION_MS⟩ := by
  simp only [draw_single_line]
  rw [if_neg h]

/-- C2: every command produced by `draw_single_line` has Euclidean length at
least `MIN_LINE_LENGTH_PX` — stated exactly via squared distances, both
sides being nonnegative integers — and a zero-length segment
(`startCol = endCol`) maps to a command identical to the raw mapping except
that `to.x` exceeds the start x by exactly `MIN_LINE_LENGTH_PX`. -/
theorem c2_min_gesture_length :
    (∀ x1 y1 x2 y2 : ℤ,
      MIN_LINE_LENGTH_PX ^ 2 ≤
        ((draw_single_line x1 y1 x2 y2).x2 - (draw_single_line x1 y1 x2 y2).x1) ^ 2 +
          ((draw_single_line x1 y1 x2 y2).y2 - (draw_single_line x1 y1 x2 y2).y1) ^ 2) ∧
    (∀ (dox doy : ℤ) (row s e : ℕ), s = e →
      draw_single_line (dox + s) (doy + row) (dox + e) (doy + row) =
        ⟨dox + s, doy + row, dox + s + MIN_LINE_LENGTH_PX, doy + row, SWIPE_DURATION_MS⟩) := by
  constructor
  · intro x1 y1 x2 y2
    by_cases h : (x2 - x1) ^ 2 + (y2 - y1) ^ 2 < MIN_LINE_LENGTH_PX ^ 2
    · rw [draw_single_line_short h]
      have h8 : (x1 + MIN_LINE_LENGTH_PX - x1) = MIN_LINE_LENGTH_PX := by ring_nf
      simp only [h8]
      have := sq_nonneg (y2 - y1)
      linarith
    · rw [draw_single_line_long h]
      exact le_of_not_lt h
  · intro dox doy row s e hse
    subst hse
    apply draw_single_line_short
    have h0 : (dox + (s : ℤ) - (dox + s)) = 0 := by ring_nf
    have h1 : (doy + (row : ℤ) - (doy + row)) = 0 := by ring_nf
    rw [h0, h1]
    unfold MIN_LINE_LENGTH_PX
    norm_num

/-- Witness for C2 at a concrete zero-length segment. -/
theorem c2_min_gesture_length_witness :
    draw_single_line (100 + (7 : ℕ)) (200 + (3 : ℕ)) (100 + (7 : ℕ)) (200 + (3 : ℕ)) =
      ⟨100 + (7 : ℕ), 200 + (3 : ℕ), 100 + (7 : ℕ) + MIN_LINE_LENGTH_PX, 200 + (3 : ℕ),
        SWIPE_DURATION_MS⟩ :=
  c2_min_gesture_length.2 100 200 3 7 7 rfl

/-- C4: the coordinate mapper computes
`drawOffsetX = marginPx + OFFSET_X_ADJUST` and
`drawOffsetY = ⌊(screenHeight - canvasHeight) / 2⌋ + OFFSET_Y_ADJUST` and
sends a segment `{row, startCol, endCol}` to
`from = (drawOffsetX + startCol, drawOffsetY + row)` and
`to = (drawOffsetX + endCol, drawOffsetY + row)`; at `marginPx = 20`,
`canvasHeight = 400`, `screenHeight = 1000` and segment
`{row: 50, startCol: 10, endCol: 30}` this gives `from = (90, 190)` and
`to = (110, 190)`. -/
theorem c4_coordinate_mapper :
    (∀ (margin screenH canvasH : ℤ) (row s e : ℕ),
      mapSegment (drawOffsetX margin) (drawOffsetY screenH canvasH) row s e =
        ((margin + 60 + s, (screenH - canvasH).fdiv 2 - 160 + row),
         (margin + 60 + e, (screenH - canvasH).fdiv 2 - 160 + row))) ∧
    mapSegment (drawOffsetX 20) (drawOffsetY 1000 400) 50 10 30 = ((90, 190), (110, 190)) := by
  constructor
  · intro margin screenH canvasH row s e
    unfold mapSegment drawOffsetX drawOffsetY OFFSET_X_ADJUST OFFSET_Y_ADJUST
    simp only [Prod.mk.injEq]
    refine ⟨⟨by ring_nf, by ring_nf⟩, by ring_nf, by ring_nf⟩
  · decide

/-! ## Geometry scaler bounds -/

theorem screenMargin0_nonneg (sw : ℕ) : 0 ≤ screenMargin0 sw := by
  unfold screenMargin0
  rw [Int.floor_nonneg]
  unfold screenMarginFrac
  positivity

theorem initialCanvasWidth_pos (sw : ℕ) (h3 : 0 < sw) :
    (0 : ℚ) < (initialCanvasWidth sw : ℚ) := by
  have hmargin : (screenMargin0 sw : ℚ) ≤ (sw : ℚ) * screenMarginFrac := Int.floor_le _
  unfold screenMarginFrac at hmargin
  have hswq : (1 : ℚ) ≤ (sw : ℚ) := by exact_mod_cast h3
  unfold initialCanvasWidth
  push_cast
  linarith

theorem initialCanvasWidth_le (sw : ℕ) : initialCanvasWidth sw ≤ (sw : ℤ) := by
  have := screenMargin0_nonneg sw
  unfold initialCanvasWidth
  omega

/-- C3: for all positive source and screen dimensions the geometry scaler
succeeds with `canvasWidth ≤ screenWidth`,
`canvasHeight ≤ ⌈screenHeight * MAX_CANVAS_HEIGHT_RATIO⌉`, and a strictly
positive scale factor. -/
theorem c3_geometry_scaler_bounds (imgW imgH sw sh : ℕ)
    (h1 : 0 < imgW) (h2 : 0 < imgH) (h3 : 0 < sw) (h4 : 0 < sh) :
    ∃ g : ScaleResult, geometryScale imgW imgH sw sh = .ok g ∧
      g.scaledWidth ≤ (sw : ℤ) ∧
      g.scaledHeight ≤ ⌈(sh : ℚ) * maxCanvasHeightFrac⌉ ∧
      0 < g.scaleFactor := by
  have himgW : (0 : ℚ) < (imgW : ℚ) := by exact_mod_cast h1
  have himgH : (0 : ℚ) < (imgH : ℚ) := by exact_mod_cast h2
  have hcw0_pos : (0 : ℚ) < (initialCanvasWidth sw : ℚ) := initialCanvasWidth_pos sw h3
  have hcw0_le : initialCanvasWidth sw ≤ (sw : ℤ) := initialCanvasWidth_le sw
  unfold geometryScale
  rw [if_neg (by omega : ¬ imgW = 0)]
  by_cases hbr : heightLimited imgW imgH sw sh
  · rw [if_pos hbr]
    have hsh7 : (0 : ℚ) < (sh : ℚ) * maxCanvasHeightFrac := by
      have hshq : (0 : ℚ) < (sh : ℚ) := by exact_mod_cast h4
      unfold maxCanvasHeightFrac
      positivity
    have hsf1 : 0 < scaleFactor1 imgH sh := div_pos hsh7 himgH
    have hsh1 : (scaledHeight1 imgH sh : ℚ) ≤ (sh : ℚ) * maxCanvasHeightFrac := by
      unfold scaledHeight1
      calc ((⌊(imgH : ℚ) * scaleFactor1 imgH sh⌋ : ℤ) : ℚ)
          ≤ (imgH : ℚ) * scaleFactor1 imgH sh := Int.floor_le _
        _ = (sh : ℚ) * maxCanvasHeightFrac := by
            unfold scaleFactor1
            exact mul_div_cancel₀ _ (ne_of_gt himgH)
    have hfloor0 : ((scaledHeight0 imgW imgH sw : ℤ) : ℚ) ≤ (imgH : ℚ) * scaleFactor0 imgW sw := by
      unfold scaledHeight0
      exact Int.floor_le _
    have hsf_rel : scaleFactor1 imgH sh < scaleFactor0 imgW sw := by
      have h7 : (sh : ℚ) * maxCanvasHeightFrac < (imgH : ℚ) * scaleFactor0 imgW sw :=
        lt_of_lt_of_le hbr hfloor0
      unfold scaleFactor1
      rw [div_lt_iff₀ himgH]
      linarith [mul_comm ((imgH : ℚ)) (scaleFactor0 imgW sw)]
    have hcw1 : (canvasWidth1 imgW imgH sh : ℚ) < (initialCanvasWidth sw : ℚ) := by
      unfold canvasWidth1
      calc ((⌊(imgW : ℚ) * scaleFactor1 imgH sh⌋ : ℤ) : ℚ)
          ≤ (imgW : ℚ) * scaleFactor1 imgH sh := Int.floor_le _
        _ < (imgW : ℚ) * scaleFactor0 imgW sw := mul_lt_mul_of_pos_left hsf_rel himgW
        _ = (initialCanvasWidth sw : ℚ) := by
            unfold scaleFactor0
            exact mul_div_cancel₀ _ (ne_of_gt himgW)
    refine ⟨_, rfl, ?_, ?_, hsf1⟩
    · have : (canvasWidth1 imgW imgH sh : ℚ) < ((sw : ℤ) : ℚ) :=
        lt_of_lt_of_le hcw1 (by exact_mod_cast hcw0_le)
      exact_mod_cast le_of_lt this
    · exact_mod_cast le_trans hsh1 (Int.le_ceil _)
  · rw [if_neg hbr]
    refine ⟨_, rfl, hcw0_le, ?_, div_pos hcw0_pos himgW⟩
    unfold heightLimited at hbr
    push_neg at hbr
    exact_mod_cast le_trans hbr (Int.le_ceil _)

/-- Witness for C3 at a 2×2 image on a 1000×2000 screen. -/
theorem c3_geometry_scaler_bounds_witness :
    ∃ g : ScaleResult, geometryScale 2 2 1000 2000 = .ok g ∧
      g.scaledWidth ≤ ((1000 : ℕ) : ℤ) ∧
      g.scaledHeight ≤ ⌈((2000 : ℕ) : ℚ) * maxCanvasHeightFrac⌉ ∧
      0 < g.scaleFactor :=
  c3_geometry_scaler_bounds 2 2 1000 2000 (by decide) (by decide) (by decide) (by decide)

/-- C6 (amended): the scaler computes `canvasHeight = ⌊sourceHeight *
scaleFactor⌋` (Python `int()` truncation, not `round`), and in the
height-limited branch recomputes `canvasWidth = ⌊sourceWidth *
scaleFactor⌋` and `marginPx = ⌊(screenWidth - canvasWidth) / 2⌋`, for every
positive source and screen size. -/
theorem c6_scaler_formulas (imgW imgH sw sh : ℕ)
    (h1 : 0 < imgW) (_h2 : 0 < imgH) (_h3 : 0 < sw) (_h4 : 0 < sh) :
    ∃ g : ScaleResult, geometryScale imgW imgH sw sh = .ok g ∧
      g.scaledHeight = ⌊(imgH : ℚ) * g.scaleFactor⌋ ∧
      (heightLimited imgW imgH sw sh →
        g.scaledWidth = ⌊(imgW : ℚ) * g.scaleFactor⌋ ∧
        g.screenMargin = ((sw : ℤ) - g.scaledWidth).fdiv 2) := by
  unfold geometryScale
  rw [if_neg (by omega : ¬ imgW = 0)]
  by_cases hbr : heightLimited imgW imgH sw sh
  · rw [if_pos hbr]
    exact ⟨_, rfl, rfl, fun _ => ⟨rfl, rfl⟩⟩
  · rw [if_neg hbr]
    exact ⟨_, rfl, rfl, fun h => absurd h hbr⟩

/-- Witness for C6 (amended) on a height-limited instance: a 2×2 image on a
1000×100 screen takes the recomputation branch. -/
theorem c6_scaler_formulas_witness :
    (∃ g : ScaleResult, geometryScale 2 2 1000 100 = .ok g ∧
      g.scaledHeight = ⌊((2 : ℕ) : ℚ) * g.scaleFactor⌋ ∧
      (heightLimited 2 2 1000 100 →
        g.scaledWidth = ⌊((2 : ℕ) : ℚ) * g.scaleFactor⌋ ∧
        g.screenMargin = (((1000 : ℕ) : ℤ) - g.scaledWidth).fdiv 2)) ∧
    heightLimited 2 2 1000 100 :=
  ⟨c6_scaler_formulas 2 2 1000 100 (by decide) (by decide) (by decide) (by decide), by
    unfold heightLimited scaledHeight0 scaleFactor0 initialCanvasWidth screenMargin0
      screenMarginFrac maxCanvasHeightFrac
    norm_num⟩

/-- Counterexample for C6 as stated: at a 5×1 image on a 10×1000 screen the
scaler yields `scaleFactor = 8/5` and `canvasHeight = 1 = ⌊1 * (8/5)⌋`,
whereas the claimed `round(sourceHeight * scaleFactor) = round (8/5) = 2`. -/
theorem c6_round_counterexample :
    geometryScale 5 1 10 1000 = Except.ok ⟨8, 1, 1, 8 / 5⟩ ∧
    round ((1 : ℚ) * (8 / 5 : ℚ)) ≠ (1 : ℤ) := by
  have e1 : screenMargin0 10 = 1 := by
    unfold screenMargin0 screenMarginFrac
    norm_num
  have e2 : initialCanvasWidth 10 = 8 := by
    unfold initialCanvasWidth
    rw [e1]
    norm_num
  have e3 : scaleFactor0 5 10 = 8 / 5 := by
    unfold scaleFactor0
    rw [e2]
    norm_num
  have e4 : scaledHeight0 5 1 10 = 1 := by
    unfold scaledHeight0
    rw [e3]
    norm_num
  have e5 : ¬ heightLimited 5 1 10 1000 := by
    unfold heightLimited maxCanvasHeightFrac
    rw [e4]
    norm_num
  constructor
  · unfold geometryScale
    rw [if_neg (by decide : ¬ (5 = 0)), if_neg e5, e2, e3, e4, e1]
  · rw [round_eq]
    norm_num

/-! ## The all-foreground 100×100 canvas scenario -/

/-- C7: drawing an all-foreground 100×100 binary canvas with stride 5
issues exactly `⌈100/5⌉ = 20` commands — one full-width horizontal swipe
per scanned row (`from.y = to.y`, spanning columns 0 to 99 relative to the
draw offsets) — at strictly increasing row offsets, whatever the session's
offsets are. -/
theorem c7_full_canvas_commands (offX offY : ℤ) :
    processDraw (List.replicate 100 (List.replicate 100 0)) 100 offX offY =
      (List.range' 0 20 5).map (fun r => ⟨offX, offY + r, offX + 99, offY + r, 150⟩) ∧
    (processDraw (List.replicate 100 (List.replicate 100 0)) 100 offX offY).length = 20 ∧
    (processDraw (List.replicate 100 (List.replicate 100 0)) 100 offX offY).Pairwise
      (fun a b => a.y1 < b.y1) := by
  have hseg : extractSegments (List.replicate 100 (List.replicate 100 0)) 100 DRAW_STEP =
      (List.range' 0 20 5).map (fun r => (r, 0, 99)) := by decide
  have hmain : processDraw (List.replicate 100 (List.replicate 100 0)) 100 offX offY =
      (List.range' 0 20 5).map (fun r => ⟨offX, offY + r, offX + 99, offY + r, 150⟩) := by
    unfold processDraw
    rw [hseg, List.map_map]
    refine List.map_congr_left ?_
    intro r _
    show draw_single_line (offX + ((0 : ℕ) : ℤ)) (offY + r) (offX + ((99 : ℕ) : ℤ)) (offY + r) = _
    have h99 : (offX + ((99 : ℕ) : ℤ)) - (offX + ((0 : ℕ) : ℤ)) = 99 := by
      push_cast
      ring_nf
    have hlong : ¬ (((offX + ((99 : ℕ) : ℤ)) - (offX + ((0 : ℕ) : ℤ))) ^ 2 +
        ((offY + (r : ℤ)) - (offY + (r : ℤ))) ^ 2 < MIN_LINE_LENGTH_PX ^ 2) := by
      rw [h99, sub_self]
      unfold MIN_LINE_LENGTH_PX
      norm_num
    rw [draw_single_line_long hlong]
    simp [SWIPE_DURATION_MS]
  refine ⟨hmain, ?_, ?_⟩
  · rw [hmain, List.length_map, List.length_range']
  · rw [hmain, List.pairwise_map]
    have hp : (List.range' 0 20 5).Pairwise (fun a b => a < b) := by decide
    refine hp.imp ?_
    intro a b hab
    show offY + (a : ℤ) < offY + (b : ℤ)
    have hab2 : (a : ℤ) < (b : ℤ) := by exact_mod_cast hab
    omega

/-! ## Pipeline error handling -/

/-- C8: if the `adb shell wm size` output lacks the `"Physical size:"`
pattern or its parse fails (`parse_resolution` returns `none`), the
pipeline ends with a reported error before the drawing loop — no swipe
command is dispatched in that run; when the device gate passed, the error
is `resolutionUnavailable`. -/
theorem c8_resolution_failure :
    ∀ (devicesOut wmSizeOut : List Char) (imageExists imageReadable : Bool)
      (imgW imgH : ℕ) (binarize : ℕ → ℕ → List (List ℕ)),
      parse_resolution wmSizeOut = none →
      (∃ e, process_image_and_draw devicesOut wmSizeOut imageExists imageReadable imgW imgH
        binarize = .error e) ∧
      (deviceConnected devicesOut = true →
        process_image_and_draw devicesOut wmSizeOut imageExists imageReadable imgW imgH
          binarize = .error .resolutionUnavailable) := by
  intro devicesOut wmSizeOut ie ir iw ih binarize hparse
  constructor
  · cases hdev : deviceConnected devicesOut
    · exact ⟨.noDevice, by simp [process_image_and_draw, hdev]⟩
    · exact ⟨.resolutionUnavailable, by simp [process_image_and_draw, hdev, hparse]⟩
  · intro hdev
    simp [process_image_and_draw, hdev, hparse]

/-- Witness for C8: a connected device but a resolution reply without the
pattern. -/
theorem c8_resolution_failure_witness :
    process_image_and_draw ("List of devices attached\nR58M1234\tdevice".toList)
      ("error: no devices".toList) true true 2 2 (fun _ _ => []) =
      .error .resolutionUnavailable :=
  (c8_resolution_failure ("List of devices attached\nR58M1234\tdevice".toList)
    ("error: no devices".toList) true true 2 2 (fun _ _ => []) (by decide)).2 (by decide)

/-- C9 (amended): when the screen resolution is unavailable the pipeline
returns early with `resolutionUnavailable`; when `sourceWidth = 0` the
scaler hits the unguarded division by zero of
`scale_factor = initial_canvas_width / img_width` (an uncaught Python
`ZeroDivisionError`), not a graceful `InvalidGeometry` failure. -/
theorem c9_zero_width_behavior :
    (∀ (imgH sw sh : ℕ), geometryScale 0 imgH sw sh = .error .zeroDivisionError) ∧
    (∀ (devicesOut wmSizeOut : List Char) (ie ir : Bool) (iw ih : ℕ)
      (binarize : ℕ → ℕ → List (List ℕ)),
      deviceConnected devicesOut = true → parse_resolution wmSizeOut = none →
      process_image_and_draw devicesOut wmSizeOut ie ir iw ih binarize =
        .error .resolutionUnavailable) := by
  constructor
  · intro imgH sw sh
    unfold geometryScale
    rw [if_pos rfl]
  · intro devicesOut wmSizeOut ie ir iw ih binarize hdev hparse
    simp [process_image_and_draw, hdev, hparse]

/-- Witness for C9 (amended). -/
theorem c9_zero_width_behavior_witness :
    geometryScale 0 5 100 200 = .error .zeroDivisionError ∧
    process_image_and_draw ("List of devices attached\nR58M1234\tdevice".toList)
      ("no physical size here".toList) true true 3 3 (fun _ _ => []) =
      .error .resolutionUnavailable :=
  ⟨c9_zero_width_behavior.1 5 100 200,
   c9_zero_width_behavior.2 ("List of devices attached\nR58M1234\tdevice".toList)
     ("no physical size here".toList) true true 3 3 (fun _ _ => []) (by decide) (by decide)⟩

/-- Counterexample for C9 as stated: at `sourceWidth = 0` the scaler does
not fail with the spec's `InvalidGeometry`; it reaches the unguarded
division by zero. -/
theorem c9_counterexample :
    geometryScale 0 1 100 200 = Except.error DrawError.zeroDivisionError ∧
    geometryScale 0 1 100 200 ≠ Except.error DrawError.invalidGeometry := by
  have h : geometryScale 0 1 100 200 = Except.error DrawError.zeroDivisionError := by
    unfold geometryScale
    rw [if_pos rfl]
  refine ⟨h, ?_⟩
  rw [h]
  intro hcon
  exact absurd (Except.error.inj hcon) (by decide)

end AdbDraw

